import Mathlib

/-!
Verification development for the Stammdaten cleaning pipeline
(`src/clean_data.py`).

The pipeline operates on one in-memory batch of records.  Each raw cell of
the loaded table is an untyped scalar; we embed the cell values that can
occur in the pipeline as the inductive type `Cell`:

* `Cell.str s`    — a Python string;
* `Cell.nan`      — the float NaN that `pd.read_csv` yields for an absent
                    cell (note `str(nan) = "nan"` and `bool(nan) = True`);
* `Cell.pynone`   — the Python value `None` (note `str(None) = "None"` and
                    `bool(None) = False`);
* `Cell.pybool b` — a Python bool (produced by `parse_bool`).

All string operations are modelled on `List Char`; whitespace is the ASCII
whitespace class used by both Python's `str.strip` and the regex class in
`re` for the strings that occur here.
-/

namespace Stammdaten

/-- The Python/pandas cell values flowing through the pipeline. -/
inductive Cell where
  | str (s : String)
  | nan
  | pynone
  | pybool (b : Bool)
deriving DecidableEq, Repr

/-- ASCII whitespace, as matched by Python's `str.strip` and `\s`
(space, tab, newline, carriage return, vertical tab, form feed). -/
def isSpace (c : Char) : Bool :=
  c == ' ' || c == '\t' || c == '\n' || c == '\r' || c == Char.ofNat 11 || c == Char.ofNat 12

/-- Python `str.strip()`: drop leading and trailing whitespace. -/
def stripChars (l : List Char) : List Char :=
  ((l.dropWhile isSpace).reverse.dropWhile isSpace).reverse

/-- Python `str.strip()` on a `String`. -/
def pystrip (s : String) : String :=
  ⟨stripChars s.data⟩

/-- `re.sub(r"\s{2,}", " ", ·)` with explicit fuel (the fuel is the length
of the list, which always suffices): every run of two or more whitespace
characters is replaced by a single space; lone whitespace characters are
kept as they are. -/
def collapseFuel : Nat → List Char → List Char
  | 0, l => l
  | _ + 1, [] => []
  | _ + 1, [c] => [c]
  | f + 1, c :: d :: rest =>
    if isSpace c && isSpace d then collapseFuel f (' ' :: rest)
    else c :: collapseFuel f (d :: rest)

/-- `re.sub(r"\s{2,}", " ", ·)` on a character list. -/
def collapseChars (l : List Char) : List Char :=
  collapseFuel l.length l

/-- `str(value)` as pandas' `astype(str)` applies it elementwise:
`str(nan) = "nan"`, `str(None) = "None"`, `str(True) = "True"`. -/
def astype_str : Cell → String
  | Cell.str s => s
  | Cell.nan => "nan"
  | Cell.pynone => "None"
  | Cell.pybool true => "True"
  | Cell.pybool false => "False"

/-- Python truthiness of a cell (`bool(nan) = True`, `bool(None) = False`,
a string is truthy iff nonempty). -/
def truthy : Cell → Bool
  | Cell.str s => !s.data.isEmpty
  | Cell.nan => true
  | Cell.pynone => false
  | Cell.pybool b => b

/-- `pd.isna`: true exactly on NaN and `None`. -/
def isna : Cell → Bool
  | Cell.nan => true
  | Cell.pynone => true
  | _ => false

/-- ASCII lower-casing of one character, as `str.lower()` acts on the
ASCII tokens compared by `parse_bool`. -/
def lowerChar (c : Char) : Char :=
  if 'A' ≤ c ∧ c ≤ 'Z' then Char.ofNat (c.toNat + 32) else c

/-- Python `str.lower()` (ASCII range). -/
def pylower (s : String) : String :=
  ⟨s.data.map lowerChar⟩

/-- A record of the six required columns.  One `Row` is one line of the
loaded table; before normalization every field holds the raw cell. -/
@[ext]
structure Row where
  id : Cell
  name : Cell
  email : Cell
  role : Cell
  start_date : Cell
  active : Cell
deriving DecidableEq, Repr

/-- `df[col].astype(str).str.strip().replace({"": None})` on one cell:
convert to string, trim, and turn the empty string into `None`. -/
def norm_field (c : Cell) : Cell :=
  let l := stripChars (astype_str c).data
  if l = [] then Cell.pynone else Cell.str ⟨l⟩

/-- `df[col].str.replace(r"\s{2,}", " ", regex=True)` on one cell: the
pandas `.str` accessor maps missing entries (here the `None` produced by
`replace({"": None})`) to NaN and rewrites strings. -/
def collapse_ws : Cell → Cell
  | Cell.str s => Cell.str ⟨collapseChars s.data⟩
  | _ => Cell.nan

/-- `normalize_strings` from `clean_data.py`: trim `name`, `email`,
`role` (empty becomes `None`), additionally collapse whitespace runs in
`name`, and trim `id` into string form with no empty-to-`None`
coercion. -/
def normalize_strings (r : Row) : Row :=
  { r with
    name := collapse_ws (norm_field r.name)
    email := norm_field r.email
    role := norm_field r.role
    id := Cell.str (pystrip (astype_str r.id)) }

/-- The token comparison of `parse_bool`: membership of the trimmed,
lower-cased string form in `{true,1,yes,y}` and `{false,0,no,n}`. -/
def parse_bool_token (s : String) : Cell :=
  if s = "true" ∨ s = "1" ∨ s = "yes" ∨ s = "y" then Cell.pybool true
  else if s = "false" ∨ s = "0" ∨ s = "no" ∨ s = "n" then Cell.pybool false
  else Cell.pynone

/-- `parse_bool` from `clean_data.py`. -/
def parse_bool (val : Cell) : Cell :=
  if isna val = true then Cell.pynone
  else parse_bool_token (pylower (pystrip (astype_str val)))

/-- Splitting a character list at every occurrence of `sep` (the list of
fragments, each free of `sep`; always nonempty). -/
def splitOnChar (sep : Char) : List Char → List (List Char)
  | [] => [[]]
  | c :: cs =>
    if c = sep then [] :: splitOnChar sep cs
    else
      match splitOnChar sep cs with
      | [] => [[c]]
      | h :: t => (c :: h) :: t

/-- All characters are decimal digits and the list is nonempty. -/
def isDigitList (l : List Char) : Bool :=
  !l.isEmpty && l.all Char.isDigit

/-- Decimal value of a digit list. -/
def toNatD (l : List Char) : Nat :=
  l.foldl (fun a c => a * 10 + (c.toNat - 48)) 0

/-- Left-pad a one-digit component to two digits. -/
def pad2s (l : List Char) : List Char :=
  if l.length = 1 then '0' :: l else l

/-- Render a parsed date as the canonical `YYYY-MM-DD` character list
(the year component is already four digits). -/
def mkIso (y m d : List Char) : List Char :=
  y ++ '-' :: (pad2s m ++ '-' :: pad2s d)

/-- Component check for a day/month/year split: four-digit year, one- or
two-digit numeric month in 1..12 and day in 1..31. -/
def dmyOk (d m y : List Char) : Bool :=
  isDigitList y && y.length = 4 &&
  isDigitList m && m.length ≤ 2 && isDigitList d && d.length ≤ 2 &&
  1 ≤ toNatD m && toNatD m ≤ 12 && 1 ≤ toNatD d && toNatD d ≤ 31

/-- Interpret a three-fragment split as year-month-day (the ISO layout). -/
def tryYMD : List (List Char) → Option String
  | [y, m, d] => if dmyOk d m y then some ⟨mkIso y m d⟩ else none
  | _ => none

/-- Interpret a three-fragment split as day-month-year (the day-first
layout used for dot- and slash-separated dates). -/
def tryDMY : List (List Char) → Option String
  | [d, m, y] => if dmyOk d m y then some ⟨mkIso y m d⟩ else none
  | _ => none

/-- Modelled from the spec: `dateutil.parser.parse(·, dayfirst=True)`
followed by `.date().isoformat()` is third-party library code not part of
this repository.  Per the spec (§4.3, §9) the permissive parser accepts at
minimum ISO `YYYY-MM-DD`, dot-separated day-first `DD.MM.YYYY` and
slash-separated day-first `DD/MM/YYYY`, tolerates surrounding whitespace,
returns only the date component, and yields a failure (here `none`) on
anything it cannot parse. -/
def dateGuess (s : String) : Option String :=
  (tryYMD (splitOnChar '-' (stripChars s.data))).orElse fun _ =>
    (tryDMY (splitOnChar '.' (stripChars s.data))).orElse fun _ =>
      tryDMY (splitOnChar '/' (stripChars s.data))

/-- `parse_date` from `clean_data.py`: null/absent or
whitespace-only input yields `None`; otherwise the permissive parse, with
any failure swallowed into `None` and success rendered `YYYY-MM-DD`. -/
def parse_date (x : Cell) : Cell :=
  if isna x = true ∨ stripChars (astype_str x).data = [] then Cell.pynone
  else
    match dateGuess (astype_str x) with
    | some o => Cell.str o
    | none => Cell.pynone

/-- `normalize_types` from `clean_data.py`: coerce `active` with
`parse_bool` and `start_date` with `parse_date`. -/
def normalize_types (r : Row) : Row :=
  { r with active := parse_bool r.active, start_date := parse_date r.start_date }

/-- The two normalization stages in pipeline order. -/
def normalize (r : Row) : Row :=
  normalize_types (normalize_strings r)

/-- A character admissible in the email pattern classes: anything but `@`
and whitespace. -/
def okChar (c : Char) : Bool :=
  c ≠ '@' && !isSpace c

/-- Core of `EMAIL_RE = ^[^@\s]+@[^@\s]+\.[^@\s]+$` on a character list:
exactly one `@` with a nonempty whitespace-free local part before it and a
domain part containing a `.` at an interior position. -/
def emailCore (l : List Char) : Bool :=
  match splitOnChar '@' l with
  | [a, b] =>
    !a.isEmpty && a.all okChar && b.all okChar &&
    decide ('.' ∈ (b.drop 1).dropLast)
  | _ => false

/-- `EMAIL_RE.match(s)` truthiness: the anchored pattern matches the whole
string, or (because `$` also matches before a final newline) the whole
string minus one trailing newline. -/
def emailMatch (s : String) : Bool :=
  emailCore s.data || (s.data.getLast? == some '\n' && emailCore s.data.dropLast)

/-- `row_errors` condition for `missing_id`:
`not row["id"] or str(row["id"]).strip() == ""`. -/
def chkId (r : Row) : Bool :=
  !truthy r.id || decide (stripChars (astype_str r.id).data = [])

/-- `row_errors` condition for `missing_name`: `not row["name"]`. -/
def chkName (r : Row) : Bool :=
  !truthy r.name

/-- `row_errors` condition for `invalid_email`:
`not row["email"] or not EMAIL_RE.match(str(row["email"]))`. -/
def chkEmail (r : Row) : Bool :=
  !truthy r.email || !emailMatch (astype_str r.email)

/-- `row_errors` condition for `missing_role`: `not row["role"]`. -/
def chkRole (r : Row) : Bool :=
  !truthy r.role

/-- `row_errors` condition for `invalid_start_date`:
`not row["start_date"]`. -/
def chkDate (r : Row) : Bool :=
  !truthy r.start_date

/-- `row_errors` condition for `invalid_active`:
`row["active"] is None`. -/
def chkActive (r : Row) : Bool :=
  decide (r.active = Cell.pynone)

/-- The list `errs` accumulated by `row_errors` in source order. -/
def row_errlist (r : Row) : List String :=
  (if chkId r then ["missing_id"] else []) ++
  (if chkName r then ["missing_name"] else []) ++
  (if chkEmail r then ["invalid_email"] else []) ++
  (if chkRole r then ["missing_role"] else []) ++
  (if chkDate r then ["invalid_start_date"] else []) ++
  (if chkActive r then ["invalid_active"] else [])

/-- `row_errors` from `clean_data.py`: `";".join(errs)`. -/
def row_errors (r : Row) : String :=
  String.intercalate ";" (row_errlist r)

/-- The valid partition before deduplication:
`df[df["error"] == ""]` of the frame extended with the error column. -/
def valid_before_dedup (rows : List Row) : List (Row × String) :=
  (rows.map (fun r => (r, row_errors r))).filter (fun p => decide (p.2 = ""))

/-- The invalid partition: `df[df["error"] != ""]`, records together with
their error descriptor column. -/
def invalid_part (rows : List Row) : List (Row × String) :=
  (rows.map (fun r => (r, row_errors r))).filter (fun p => decide (p.2 ≠ ""))

/-- `valid.drop_duplicates(subset=["id"], keep="first")`: scan in order
and keep a record only when its `id` value has not been seen before. -/
def dedupPairs (seen : List Cell) : List (Row × String) → List (Row × String)
  | [] => []
  | p :: ps =>
    if p.1.id ∈ seen then dedupPairs seen ps
    else p :: dedupPairs (p.1.id :: seen) ps

/-- `validate_rows` from `clean_data.py`: partition on the computed error
descriptor, deduplicate the valid part by `id` keeping the first
occurrence, drop the helper error column from the valid part, and return
both parts. -/
def validate_rows (rows : List Row) : List Row × List (Row × String) :=
  ((dedupPairs [] (valid_before_dedup rows)).map Prod.fst, invalid_part rows)

/-- The required column set checked by `read_csv`. -/
def REQUIRED_COLS : List String :=
  ["id", "name", "email", "role", "start_date", "active"]

/-- A loaded table: the column header and the grid of raw cells. -/
structure RawTable where
  cols : List String
  cells : List (List Cell)
deriving DecidableEq, Repr

/-- `[c for c in REQUIRED_COLS if c not in df.columns]`. -/
def missingCols (cols : List String) : List String :=
  REQUIRED_COLS.filter (fun c => decide (c ∉ cols))

/-- `read_csv` from `clean_data.py`, at the boundary after pandas has
loaded the table: raise (`Except.error`, naming the missing columns) iff
some required column is absent, otherwise pass the table through. -/
def read_csv (t : RawTable) : Except (List String) RawTable :=
  if missingCols t.cols ≠ [] then Except.error (missingCols t.cols) else Except.ok t

/-! ### List lemmas for the partition and deduplication arguments -/

theorem length_filter_add_length_filter_not (p : α → Bool) :
    ∀ l : List α, (l.filter p).length + (l.filter (fun a => !p a)).length = l.length := by
  intro l
  induction l with
  | nil => rfl
  | cons a l ih =>
    cases h : p a <;> simp [List.filter_cons, h] <;> omega


theorem dedupPairs_sublist (seen : List Cell) :
    ∀ l : List (Row × String), (dedupPairs seen l).Sublist l := by
  intro l
  induction l generalizing seen with
  | nil => exact List.Sublist.refl []
  | cons p ps ih =>
    by_cases h : p.1.id ∈ seen
    · simpa [dedupPairs, h] using List.Sublist.cons p (ih seen)
    · simpa [dedupPairs, h] using List.Sublist.cons₂ p (ih (p.1.id :: seen))

theorem dedupPairs_filter_key (k : Cell) :
    ∀ (l : List (Row × String)) (seen : List Cell),
      ((dedupPairs seen l).map Prod.fst).filter (fun r => decide (r.id = k)) =
        if k ∈ seen then []
        else ((l.map Prod.fst).filter (fun r => decide (r.id = k))).take 1 := by
  intro l
  induction l with
  | nil => intro seen; by_cases h : k ∈ seen <;> simp [dedupPairs, h]
  | cons p ps ih =>
    intro seen
    by_cases hseen : p.1.id ∈ seen
    · rw [dedupPairs, if_pos hseen, ih seen]
      by_cases hk : k ∈ seen
      · rw [if_pos hk, if_pos hk]
      · have hne : ¬ (p.1.id = k) := fun h => hk (h ▸ hseen)
        rw [if_neg hk, if_neg hk]
        simp [List.filter_cons, hne]
    · rw [dedupPairs, if_neg hseen]
      by_cases hk : k = p.1.id
      · subst hk
        have h1 := ih (p.1.id :: seen)
        rw [if_pos (List.mem_cons_self _ _)] at h1
        simp [List.filter_cons, h1, List.mem_cons, hseen]
      · have hne : ¬ (p.1.id = k) := fun h => hk h.symm
        have h1 := ih (p.1.id :: seen)
        by_cases hks : k ∈ seen
        · rw [if_pos (List.mem_cons.mpr (Or.inr hks))] at h1
          rw [if_pos hks]
          simp [List.filter_cons, hne, h1]
        · have hkc : ¬ k ∈ p.1.id :: seen := by
            intro hc
            rcases List.mem_cons.mp hc with hc | hc
            · exact hk hc
            · exact hks hc
          rw [if_neg hkc] at h1
          rw [if_neg hks]
          simp [List.filter_cons, hne, h1]

/-! ### Concrete rows used by witnesses and counterexamples -/

/-- A raw input row that passes every rule (spec §8 scenario 1). -/
def rowOkRaw : Row :=
  { id := Cell.str " 7 ", name := Cell.str "Ann  Lee", email := Cell.str "a@b.com",
    role := Cell.str "eng", start_date := Cell.str "15.05.2023", active := Cell.str "yes" }

/-- The normalized form of `rowOkRaw`. -/
def rowOk : Row := normalize rowOkRaw

/-- A raw input row with a malformed email (spec §8 scenario 2). -/
def rowBadRaw : Row :=
  { id := Cell.str "1", name := Cell.str "Ann", email := Cell.str "not-an-email",
    role := Cell.str "eng", start_date := Cell.str "2023-05-15", active := Cell.str "yes" }

/-- The normalized form of `rowBadRaw`. -/
def rowBad : Row := normalize rowBadRaw

/-! ### Claim theorems -/

/-- Claim C1: after validation and before deduplication every input record
lands in exactly one of the valid and invalid partitions, the two sizes add
up to the input size, and every invalid entry carries its (nonempty)
violated-rule descriptor. -/
theorem c1_partition_complete (rows : List Row) :
    (valid_before_dedup rows).length + ((validate_rows rows).2).length = rows.length ∧
    (∀ r ∈ rows,
      ((r, row_errors r) ∈ valid_before_dedup rows ↔ row_errors r = "") ∧
      ((r, row_errors r) ∈ invalid_part rows ↔ row_errors r ≠ "")) ∧
    (∀ p ∈ invalid_part rows, p.2 = row_errors p.1 ∧ p.2 ≠ "") := by
  have hinv : invalid_part rows =
      (rows.map (fun r => (r, row_errors r))).filter
        (fun p => !(decide (p.2 = ""))) := by
    unfold invalid_part
    congr 1
    funext p
    simp [ne_eq, decide_not]
  refine ⟨?_, ?_, ?_⟩
  · show (valid_before_dedup rows).length + (invalid_part rows).length = rows.length
    rw [hinv]
    have h2 := length_filter_add_length_filter_not
      (fun q : Row × String => decide (q.2 = "")) (rows.map (fun r => (r, row_errors r)))
    unfold valid_before_dedup
    simpa using h2
  · intro r hr
    constructor
    · constructor
      · intro hmem
        rcases List.mem_filter.mp hmem with ⟨_, hq⟩
        exact of_decide_eq_true hq
      · intro he
        exact List.mem_filter.mpr ⟨List.mem_map_of_mem _ hr, decide_eq_true he⟩
    · constructor
      · intro hmem
        rcases List.mem_filter.mp hmem with ⟨_, hq⟩
        exact of_decide_eq_true hq
      · intro he
        exact List.mem_filter.mpr ⟨List.mem_map_of_mem _ hr, decide_eq_true he⟩
  · intro p hp
    rcases List.mem_filter.mp hp with ⟨hmem, hq⟩
    rcases List.mem_map.mp hmem with ⟨a, _, hEq⟩
    refine ⟨?_, of_decide_eq_true hq⟩
    rw [← hEq]

/-- Witness for C1 at a concrete two-row batch. -/
theorem c1_partition_complete_witness :
    ((valid_before_dedup [rowOk, rowBad]).length +
      ((validate_rows [rowOk, rowBad]).2).length = 2) ∧
    ((rowOk, row_errors rowOk) ∈ valid_before_dedup [rowOk, rowBad] ↔
      row_errors rowOk = "") :=
  ⟨(c1_partition_complete [rowOk, rowBad]).1,
    ((c1_partition_complete [rowOk, rowBad]).2.1 rowOk (by decide)).1⟩

/-- Claim C3: deduplication scans the valid records in original order; for
each `id` value the survivor is the first (smallest original row index)
same-`id` valid record, later ones are dropped (the surviving list is a
sublist of the pre-dedup valid list), and the invalid partition is exactly
the set of records with a nonempty descriptor, unaffected by dropped
duplicates. -/
theorem c3_dedup_first_wins (rows : List Row) :
    ((validate_rows rows).1).Sublist ((valid_before_dedup rows).map Prod.fst) ∧
    (∀ k : Cell,
      ((validate_rows rows).1).filter (fun r => decide (r.id = k)) =
        (((valid_before_dedup rows).map Prod.fst).filter
          (fun r => decide (r.id = k))).take 1) ∧
    (validate_rows rows).2 = invalid_part rows := by
  refine ⟨?_, ?_, rfl⟩
  · exact List.Sublist.map Prod.fst (dedupPairs_sublist [] _)
  · intro k
    have h := dedupPairs_filter_key k (valid_before_dedup rows) []
    simpa using h

/-- Claim C10: `validate_rows` preserves record contents: every surviving
valid record is one of the input records unchanged (the helper error
column is dropped), and every invalid entry is an input record unchanged
plus its error descriptor. -/
theorem c10_values_preserved (rows : List Row) :
    (∀ r ∈ (validate_rows rows).1, r ∈ rows ∧ row_errors r = "") ∧
    (∀ p ∈ (validate_rows rows).2, p.1 ∈ rows ∧ p.2 = row_errors p.1) := by
  constructor
  · intro r hr
    have hsub : ((validate_rows rows).1).Sublist
        ((valid_before_dedup rows).map Prod.fst) :=
      List.Sublist.map Prod.fst (dedupPairs_sublist [] _)
    have hr2 : r ∈ (valid_before_dedup rows).map Prod.fst := hsub.subset hr
    rcases List.mem_map.mp hr2 with ⟨p, hp, hfst⟩
    rcases List.mem_filter.mp hp with ⟨hmem, hq⟩
    rcases List.mem_map.mp hmem with ⟨a, ha, hEq⟩
    have h1 : p.1 = a := by rw [← hEq]
    have h2 : p.2 = row_errors a := by rw [← hEq]
    subst hfst
    constructor
    · rw [h1]; exact ha
    · rw [h1, ← h2]
      exact of_decide_eq_true hq
  · intro p hp
    rcases List.mem_filter.mp hp with ⟨hmem, _⟩
    rcases List.mem_map.mp hmem with ⟨a, ha, hEq⟩
    constructor
    · rw [← hEq]; exact ha
    · rw [← hEq]

/-- Witness for C10 at a concrete batch. -/
theorem c10_values_preserved_witness :
    (rowOk ∈ [rowOk, rowBad] ∧ row_errors rowOk = "") ∧
    ((rowBad, row_errors rowBad).1 ∈ [rowOk, rowBad] ∧
      (rowBad, row_errors rowBad).2 = row_errors rowBad) :=
  ⟨(c10_values_preserved [rowOk, rowBad]).1 rowOk (by decide),
    (c10_values_preserved [rowOk, rowBad]).2 (rowBad, row_errors rowBad) (by decide)⟩

/-! ### The rule table (§4.4) -/

/-- The fixed rule-name table in its fixed order (spec §4.4). -/
def RULES : List String :=
  ["missing_id", "missing_name", "invalid_email", "missing_role",
    "invalid_start_date", "invalid_active"]

/-- The spec's rule table as a predicate: whether a record violates the
rule of the given name. -/
def violatedB (r : Row) (rule : String) : Bool :=
  if rule = "missing_id" then chkId r
  else if rule = "missing_name" then chkName r
  else if rule = "invalid_email" then chkEmail r
  else if rule = "missing_role" then chkRole r
  else if rule = "invalid_start_date" then chkDate r
  else if rule = "invalid_active" then chkActive r
  else false

theorem errlist_table_key : ∀ b1 b2 b3 b4 b5 b6 : Bool,
    String.intercalate ";"
      ((if b1 then ["missing_id"] else []) ++
        (if b2 then ["missing_name"] else []) ++
        (if b3 then ["invalid_email"] else []) ++
        (if b4 then ["missing_role"] else []) ++
        (if b5 then ["invalid_start_date"] else []) ++
        (if b6 then ["invalid_active"] else [])) =
      String.intercalate ";"
        (RULES.filter (fun n =>
          if n = "missing_id" then b1
          else if n = "missing_name" then b2
          else if n = "invalid_email" then b3
          else if n = "missing_role" then b4
          else if n = "invalid_start_date" then b5
          else if n = "invalid_active" then b6
          else false)) ∧
    (String.intercalate ";"
      ((if b1 then ["missing_id"] else []) ++
        (if b2 then ["missing_name"] else []) ++
        (if b3 then ["invalid_email"] else []) ++
        (if b4 then ["missing_role"] else []) ++
        (if b5 then ["invalid_start_date"] else []) ++
        (if b6 then ["invalid_active"] else [])) = "" ↔
      RULES.filter (fun n =>
        if n = "missing_id" then b1
        else if n = "missing_name" then b2
        else if n = "invalid_email" then b3
        else if n = "missing_role" then b4
        else if n = "invalid_start_date" then b5
        else if n = "invalid_active" then b6
        else false) = []) := by decide

/-- Claim C4: the error descriptor of any record is the semicolon-joined
list of its violated rule names in the fixed table order, and a record is
valid (empty descriptor) iff it violates no rule. -/
theorem c4_descriptor_order (r : Row) :
    row_errors r = String.intercalate ";" (RULES.filter (violatedB r)) ∧
    (row_errors r = "" ↔ RULES.filter (violatedB r) = []) :=
  errlist_table_key (chkId r) (chkName r) (chkEmail r) (chkRole r) (chkDate r)
    (chkActive r)

/-! ### Concrete rows for C2 and C5 -/

/-- A raw input row whose `name` and `role` cells are absent (NaN from the
CSV reader), all other fields passing. -/
def rowC2Raw : Row :=
  { id := Cell.str "1", name := Cell.nan, email := Cell.str "a@b.com",
    role := Cell.nan, start_date := Cell.str "2023-05-15", active := Cell.str "yes" }

/-- Claim C2, behavior of the code at the failing input: an absent (NaN)
`name` or `role` cell is stringified by `astype(str)` to the literal text
`"nan"`, so normalization does not yield null, no `missing_name` or
`missing_role` violation is flagged, and the record is routed to the valid
partition. -/
theorem c2_code_behavior :
    (normalize rowC2Raw).name = Cell.str "nan" ∧
    (normalize rowC2Raw).role = Cell.str "nan" ∧
    row_errors (normalize rowC2Raw) = "" ∧
    (normalize rowC2Raw, row_errors (normalize rowC2Raw)) ∈
      valid_before_dedup [normalize rowC2Raw] := by decide

/-- A raw input row with `active="maybe"` and `start_date=""`, all other
fields passing (spec §8 scenario 3). -/
def rowC5Raw : Row :=
  { id := Cell.str "1", name := Cell.str "Ann", email := Cell.str "a@b.com",
    role := Cell.str "eng", start_date := Cell.str "", active := Cell.str "maybe" }

/-- Claim C5 counterexample: for the scenario row the code's descriptor is
not `"invalid_active;invalid_start_date"` — `row_errors` appends
`invalid_start_date` before `invalid_active`, following the §4.4 table
order. -/
theorem c5_counterexample :
    row_errors (normalize rowC5Raw) ≠ "invalid_active;invalid_start_date" := by
  decide

/-- Claim C5 (amended): the scenario row is invalid and its descriptor is
exactly `"invalid_start_date;invalid_active"`, both rules triggering
independently. -/
theorem c5_amended :
    row_errors (normalize rowC5Raw) = "invalid_start_date;invalid_active" ∧
    row_errors (normalize rowC5Raw) ≠ "" := by decide

/-- Claim C7: the loader fails, naming exactly the missing required
columns, iff some required column is absent; the decision and the error
value depend only on the header, never on the cell contents; with all six
required columns present it succeeds with the table unchanged. -/
theorem c7_schema_error (t : RawTable) :
    ((∃ m, read_csv t = Except.error m) ↔ ∃ c ∈ REQUIRED_COLS, c ∉ t.cols) ∧
    (∀ m, read_csv t = Except.error m →
      m = missingCols t.cols ∧ m ≠ [] ∧ ∀ c ∈ m, c ∈ REQUIRED_COLS ∧ c ∉ t.cols) ∧
    (∀ cells2, (∃ m, read_csv { cols := t.cols, cells := cells2 } = Except.error m) ↔
      (∃ m, read_csv t = Except.error m)) ∧
    ((∀ c ∈ REQUIRED_COLS, c ∈ t.cols) → read_csv t = Except.ok t) := by
  by_cases h : missingCols t.cols = []
  · have hok : read_csv t = Except.ok t := by
      unfold read_csv
      rw [if_neg (by simpa using h)]
    refine ⟨?_, ?_, ?_, fun _ => hok⟩
    · constructor
      · rintro ⟨m, hm⟩
        rw [hok] at hm
        cases hm
      · rintro ⟨c, hc, hnc⟩
        have := (List.filter_eq_nil_iff.mp h) c hc
        simp at this
        exact absurd this hnc
    · intro m hm
      rw [hok] at hm
      cases hm
    · intro cells2
      have hok2 : read_csv { cols := t.cols, cells := cells2 } =
          Except.ok { cols := t.cols, cells := cells2 } := by
        unfold read_csv
        rw [if_neg (by simpa using h)]
      constructor
      · rintro ⟨m, hm⟩
        rw [hok2] at hm
        cases hm
      · rintro ⟨m, hm⟩
        rw [hok] at hm
        cases hm
  · have herr : read_csv t = Except.error (missingCols t.cols) := by
      unfold read_csv
      rw [if_pos h]
    refine ⟨?_, ?_, ?_, ?_⟩
    · constructor
      · intro _
        rcases List.exists_mem_of_ne_nil _ h with ⟨c, hc⟩
        rcases List.mem_filter.mp hc with ⟨hc1, hc2⟩
        exact ⟨c, hc1, of_decide_eq_true hc2⟩
      · intro _
        exact ⟨missingCols t.cols, herr⟩
    · intro m hm
      rw [herr] at hm
      cases hm
      refine ⟨rfl, h, ?_⟩
      intro c hc
      rcases List.mem_filter.mp hc with ⟨hc1, hc2⟩
      exact ⟨hc1, of_decide_eq_true hc2⟩
    · intro cells2
      have herr2 : read_csv { cols := t.cols, cells := cells2 } =
          Except.error (missingCols t.cols) := by
        unfold read_csv
        rw [if_pos h]
      constructor
      · intro _
        exact ⟨missingCols t.cols, herr⟩
      · intro _
        exact ⟨missingCols t.cols, herr2⟩
    · intro hall
      exact absurd (List.filter_eq_nil_iff.mpr (by
        intro c hc
        simp
        exact hall c hc)) h

/-- A concrete table whose header lacks the `role` column (spec §8
scenario 5). -/
def tableNoRole : RawTable :=
  { cols := ["id", "name", "email", "start_date", "active"],
    cells := [[Cell.str "1", Cell.str "Ann", Cell.str "a@b.com",
      Cell.str "2023-05-15", Cell.str "yes"]] }

/-- Witness for C7: the table missing `role` is rejected. -/
theorem c7_schema_error_witness :
    (∃ m, read_csv tableNoRole = Except.error m) ∧
    read_csv { cols := REQUIRED_COLS, cells := [] } =
      Except.ok { cols := REQUIRED_COLS, cells := [] } :=
  ⟨(c7_schema_error tableNoRole).1.mpr ⟨"role", by decide, by decide⟩,
    (c7_schema_error { cols := REQUIRED_COLS, cells := [] }).2.2.2 (by decide)⟩

/-! ### Lemmas about `splitOnChar` -/

theorem splitOnChar_ne_nil (sep : Char) : ∀ l : List Char, splitOnChar sep l ≠ [] := by
  intro l
  induction l with
  | nil => simp [splitOnChar]
  | cons c cs ih =>
    by_cases h : c = sep
    · simp [splitOnChar, h]
    · rw [splitOnChar, if_neg h]
      rcases hs : splitOnChar sep cs with _ | ⟨hd, tl⟩
      · exact absurd hs ih
      · simp

theorem splitOnChar_cons_sep (sep : Char) (r : List Char) :
    splitOnChar sep (sep :: r) = [] :: splitOnChar sep r := by
  rw [splitOnChar, if_pos rfl]

theorem splitOnChar_append_sep (sep : Char) :
    ∀ (a r : List Char), sep ∉ a →
      splitOnChar sep (a ++ sep :: r) = a :: splitOnChar sep r := by
  intro a
  induction a with
  | nil => intro r _; exact splitOnChar_cons_sep sep r
  | cons c cs ih =>
    intro r hmem
    have hc : ¬ c = sep := fun h => hmem (h ▸ List.mem_cons_self c cs)
    have hcs : sep ∉ cs := fun h => hmem (List.mem_cons_of_mem c h)
    rw [List.cons_append, splitOnChar, if_neg hc, ih r hcs]

theorem splitOnChar_of_not_mem (sep : Char) :
    ∀ l : List Char, sep ∉ l → splitOnChar sep l = [l] := by
  intro l
  induction l with
  | nil => intro _; rfl
  | cons c cs ih =>
    intro hmem
    have hc : ¬ c = sep := fun h => hmem (h ▸ List.mem_cons_self c cs)
    have hcs : sep ∉ cs := fun h => hmem (List.mem_cons_of_mem c h)
    rw [splitOnChar, if_neg hc, ih hcs]

/-- Joining fragments back with the separator. -/
def joinSep (sep : Char) : List (List Char) → List Char
  | [] => []
  | [p] => p
  | p :: q :: ps => p ++ sep :: joinSep sep (q :: ps)

theorem joinSep_splitOnChar (sep : Char) :
    ∀ l : List Char, joinSep sep (splitOnChar sep l) = l := by
  intro l
  induction l with
  | nil => rfl
  | cons c cs ih =>
    rcases hs : splitOnChar sep cs with _ | ⟨hd, tl⟩
    · exact absurd hs (splitOnChar_ne_nil sep cs)
    · rw [hs] at ih
      by_cases h : c = sep
      · subst h
        rw [splitOnChar_cons_sep, hs]
        show [] ++ c :: joinSep c (hd :: tl) = c :: cs
        rw [List.nil_append, ih]
      · rw [splitOnChar, if_neg h, hs]
        cases tl with
        | nil =>
          show c :: hd = c :: cs
          simp only [joinSep] at ih
          rw [ih]
        | cons q qs =>
          show (c :: hd) ++ sep :: joinSep sep (q :: qs) = c :: cs
          simp only [joinSep] at ih
          rw [List.cons_append, ih]

theorem splitOnChar_parts_not_mem (sep : Char) :
    ∀ l : List Char, ∀ p ∈ splitOnChar sep l, sep ∉ p := by
  intro l
  induction l with
  | nil =>
    intro p hp
    simp [splitOnChar] at hp
    simp [hp]
  | cons c cs ih =>
    intro p hp
    by_cases h : c = sep
    · rw [splitOnChar, if_pos h] at hp
      rcases List.mem_cons.mp hp with hp | hp
      · simp [hp]
      · exact ih p hp
    · rw [splitOnChar, if_neg h] at hp
      rcases hs : splitOnChar sep cs with _ | ⟨hd, tl⟩
      · exact absurd hs (splitOnChar_ne_nil sep cs)
      · rw [hs] at hp
        rcases List.mem_cons.mp hp with hp | hp
        · subst hp
          intro hmem
          rcases List.mem_cons.mp hmem with hmem | hmem
          · exact h hmem.symm
          · exact ih hd (hs ▸ List.mem_cons_self hd tl) hmem
        · exact ih p (hs ▸ List.mem_cons_of_mem hd hp)

/-! ### Lemmas about `stripChars` -/

theorem dropWhile_eq_self_of_all (p : Char → Bool) :
    ∀ l : List Char, (∀ c ∈ l, p c = false) → l.dropWhile p = l := by
  intro l h
  cases l with
  | nil => rfl
  | cons a l =>
    exact List.dropWhile_cons_of_neg (by
      rw [h a (List.mem_cons_self a l)]; simp)

theorem stripChars_of_all_nonspace (l : List Char)
    (h : ∀ c ∈ l, isSpace c = false) : stripChars l = l := by
  unfold stripChars
  rw [dropWhile_eq_self_of_all isSpace l h,
    dropWhile_eq_self_of_all isSpace l.reverse
      (fun c hc => h c (List.mem_reverse.mp hc)),
    List.reverse_reverse]

/-! ### Lemmas about digits, `pad2s` and `mkIso` -/

theorem isSpace_eq_false_of_isDigit {c : Char} (h : c.isDigit = true) :
    isSpace c = false := by
  by_contra hc
  rw [Bool.not_eq_false] at hc
  simp only [isSpace, Bool.or_eq_true, beq_iff_eq] at hc
  rcases hc with ((((h1 | h1) | h1) | h1) | h1) | h1 <;> subst h1 <;>
    exact absurd h (by decide)

theorem not_dash_of_isDigit {c : Char} (h : c.isDigit = true) : ¬ c = '-' := by
  intro h1
  subst h1
  exact absurd h (by decide)

theorem digits_mem {l : List Char} (h : isDigitList l = true) :
    ∀ x ∈ l, x.isDigit = true := by
  simp only [isDigitList, Bool.and_eq_true] at h
  exact fun x hx => List.all_eq_true.mp h.2 x hx

theorem pad2s_digits {m : List Char} (h : isDigitList m = true) :
    isDigitList (pad2s m) = true := by
  unfold pad2s
  by_cases hl : m.length = 1
  · rw [if_pos hl]
    simp only [isDigitList, List.all_cons, Bool.and_eq_true] at h ⊢
    exact ⟨by simp, by decide, h.2⟩
  · rw [if_neg hl]
    exact h

theorem pad2s_length {m : List Char} (h : isDigitList m = true)
    (h2 : m.length ≤ 2) : (pad2s m).length = 2 := by
  unfold pad2s
  rcases m with _ | ⟨a, _ | ⟨b, _ | ⟨c, t⟩⟩⟩
  · exact absurd h (by decide)
  · simp
  · simp
  · simp at h2

theorem pad2s_of_length_two {m : List Char} (h : m.length = 2) :
    pad2s m = m := by
  unfold pad2s
  rw [if_neg (by omega)]

theorem toNatD_pad2s (m : List Char) : toNatD (pad2s m) = toNatD m := by
  unfold pad2s
  by_cases hl : m.length = 1
  · rw [if_pos hl]
    rfl
  · rw [if_neg hl]

theorem dmyOk_pad (d m y : List Char) (h : dmyOk d m y = true) :
    dmyOk (pad2s d) (pad2s m) y = true := by
  simp only [dmyOk, Bool.and_eq_true] at h ⊢
  obtain ⟨⟨⟨⟨⟨⟨⟨⟨⟨hy, hy4⟩, hm⟩, hm2⟩, hd⟩, hd2⟩, hm1⟩, hm12⟩, hd1⟩, hd31⟩ := h
  have hmL : (pad2s m).length = 2 := pad2s_length hm (of_decide_eq_true hm2)
  have hdL : (pad2s d).length = 2 := pad2s_length hd (of_decide_eq_true hd2)
  rw [toNatD_pad2s m, toNatD_pad2s d]
  refine ⟨⟨⟨⟨⟨⟨⟨⟨⟨hy, hy4⟩, pad2s_digits hm⟩, ?_⟩, pad2s_digits hd⟩, ?_⟩,
    hm1⟩, hm12⟩, hd1⟩, hd31⟩
  · rw [hmL]
    decide
  · rw [hdL]
    decide

theorem mkIso_all_nonspace {y m d : List Char} (hy : isDigitList y = true)
    (hm : isDigitList m = true) (hd : isDigitList d = true) :
    ∀ c ∈ mkIso y m d, isSpace c = false := by
  intro c hc
  unfold mkIso at hc
  rcases List.mem_append.mp hc with hc | hc
  · exact isSpace_eq_false_of_isDigit (digits_mem hy c hc)
  · rcases List.mem_cons.mp hc with hc | hc
    · subst hc; decide
    · rcases List.mem_append.mp hc with hc | hc
      · exact isSpace_eq_false_of_isDigit (digits_mem (pad2s_digits hm) c hc)
      · rcases List.mem_cons.mp hc with hc | hc
        · subst hc; decide
        · exact isSpace_eq_false_of_isDigit (digits_mem (pad2s_digits hd) c hc)

theorem not_dash_mem_of_digits {l : List Char} (h : isDigitList l = true) :
    '-' ∉ l := by
  intro hmem
  exact absurd (digits_mem h _ hmem) (by decide)

theorem splitOnChar_mkIso (y m d : List Char) (hy : isDigitList y = true)
    (hm : isDigitList m = true) (hd : isDigitList d = true) :
    splitOnChar '-' (mkIso y m d) = [y, pad2s m, pad2s d] := by
  unfold mkIso
  rw [splitOnChar_append_sep '-' y _ (not_dash_mem_of_digits hy),
    splitOnChar_append_sep '-' (pad2s m) _ (not_dash_mem_of_digits (pad2s_digits hm)),
    splitOnChar_of_not_mem '-' (pad2s d) (not_dash_mem_of_digits (pad2s_digits hd))]

theorem mkIso_pad_eq (y m d : List Char) (hm : isDigitList m = true)
    (hm2 : m.length ≤ 2) (hd : isDigitList d = true) (hd2 : d.length ≤ 2) :
    mkIso y (pad2s m) (pad2s d) = mkIso y m d := by
  unfold mkIso
  rw [pad2s_of_length_two (pad2s_length hm hm2),
    pad2s_of_length_two (pad2s_length hd hd2)]

theorem dateGuess_mkIso {y m d : List Char} (h : dmyOk d m y = true) :
    dateGuess ⟨mkIso y m d⟩ = some ⟨mkIso y m d⟩ := by
  have hOk := h
  simp only [dmyOk, Bool.and_eq_true] at h
  obtain ⟨⟨⟨⟨⟨⟨⟨⟨⟨hy, hy4⟩, hm⟩, hm2⟩, hd⟩, hd2⟩, _⟩, _⟩, _⟩, _⟩ := h
  have hstrip : stripChars (String.mk (mkIso y m d)).data = mkIso y m d :=
    stripChars_of_all_nonspace _ (mkIso_all_nonspace hy hm hd)
  unfold dateGuess
  rw [hstrip, splitOnChar_mkIso y m d hy hm hd]
  simp only [tryYMD]
  rw [if_pos (dmyOk_pad d m y hOk)]
  rw [mkIso_pad_eq y m d hm (of_decide_eq_true hm2) hd (of_decide_eq_true hd2)]
  rfl

/-! ### The canonical `YYYY-MM-DD` shape -/

/-- The `YYYY-MM-DD` shape: four digits, dash, two digits, dash, two
digits. -/
def isoShape (l : List Char) : Bool :=
  match l with
  | [y1, y2, y3, y4, s1, m1, m2, s2, d1, d2] =>
    [y1, y2, y3, y4, m1, m2, d1, d2].all Char.isDigit && s1 = '-' && s2 = '-'
  | _ => false

theorem exists_four_of_length {l : List Char} (h : l.length = 4) :
    ∃ a b c d, l = [a, b, c, d] := by
  rcases l with _ | ⟨a, _ | ⟨b, _ | ⟨c, _ | ⟨d, _ | ⟨e, t⟩⟩⟩⟩⟩ <;> simp_all

theorem exists_two_of_length {l : List Char} (h : l.length = 2) :
    ∃ a b, l = [a, b] := by
  rcases l with _ | ⟨a, _ | ⟨b, _ | ⟨c, t⟩⟩⟩ <;> simp_all

theorem isoShape_mkIso {y m d : List Char} (h : dmyOk d m y = true) :
    isoShape (mkIso y m d) = true := by
  simp only [dmyOk, Bool.and_eq_true] at h
  obtain ⟨⟨⟨⟨⟨⟨⟨⟨⟨hy, hy4⟩, hm⟩, hm2⟩, hd⟩, hd2⟩, _⟩, _⟩, _⟩, _⟩ := h
  have hmL : (pad2s m).length = 2 := pad2s_length hm (of_decide_eq_true hm2)
  have hdL : (pad2s d).length = 2 := pad2s_length hd (of_decide_eq_true hd2)
  have hmD := pad2s_digits hm
  have hdD := pad2s_digits hd
  rcases exists_four_of_length (of_decide_eq_true hy4) with ⟨y1, y2, y3, y4, hyE⟩
  rcases exists_two_of_length hmL with ⟨m1, m2, hmE⟩
  rcases exists_two_of_length hdL with ⟨d1, d2, hdE⟩
  have hyD := hy
  rw [hyE] at hyD
  rw [hmE] at hmD
  rw [hdE] at hdD
  simp only [isDigitList, List.all_cons, List.all_nil, Bool.and_eq_true,
    Bool.and_true] at hyD hmD hdD
  have hList : mkIso y m d = [y1, y2, y3, y4, '-', m1, m2, '-', d1, d2] := by
    rw [mkIso, hyE, hmE, hdE]
    rfl
  rw [hList]
  simp [isoShape, hyD, hmD, hdD]

theorem tryYMD_some {parts : List (List Char)} {o : String}
    (h : tryYMD parts = some o) :
    ∃ y m d, dmyOk d m y = true ∧ o = String.mk (mkIso y m d) := by
  rcases parts with _ | ⟨a, _ | ⟨b, _ | ⟨c, _ | ⟨e, t⟩⟩⟩⟩
  · simp [tryYMD] at h
  · simp [tryYMD] at h
  · simp [tryYMD] at h
  · simp only [tryYMD] at h
    by_cases hok : dmyOk c b a = true
    · rw [if_pos hok] at h
      injection h with h2
      exact ⟨a, b, c, hok, h2.symm⟩
    · rw [if_neg hok] at h
      cases h
  · simp [tryYMD] at h

theorem tryDMY_some {parts : List (List Char)} {o : String}
    (h : tryDMY parts = some o) :
    ∃ y m d, dmyOk d m y = true ∧ o = String.mk (mkIso y m d) := by
  rcases parts with _ | ⟨a, _ | ⟨b, _ | ⟨c, _ | ⟨e, t⟩⟩⟩⟩
  · simp [tryDMY] at h
  · simp [tryDMY] at h
  · simp [tryDMY] at h
  · simp only [tryDMY] at h
    by_cases hok : dmyOk a b c = true
    · rw [if_pos hok] at h
      injection h with h2
      exact ⟨c, b, a, hok, h2.symm⟩
    · rw [if_neg hok] at h
      cases h
  · simp [tryDMY] at h

theorem orElse_eq_some_cases {α : Type} {a : Option α} {f : Unit → Option α}
    {x : α} (h : a.orElse f = some x) :
    a = some x ∨ (a = none ∧ f () = some x) := by
  cases a with
  | none =>
    right
    refine ⟨rfl, ?_⟩
    simpa [Option.orElse] using h
  | some b =>
    left
    simpa [Option.orElse] using h

theorem dateGuess_some_shape {s o : String} (h : dateGuess s = some o) :
    ∃ y m d, dmyOk d m y = true ∧ o = String.mk (mkIso y m d) := by
  unfold dateGuess at h
  rcases orElse_eq_some_cases h with h1 | ⟨_, h1⟩
  · exact tryYMD_some h1
  · rcases orElse_eq_some_cases h1 with h2 | ⟨_, h2⟩
    · exact tryDMY_some h2
    · exact tryDMY_some h2

theorem dateGuess_of_strip_nil {s : String}
    (h : stripChars s.data = []) : dateGuess s = none := by
  unfold dateGuess
  rw [h]
  rfl

/-- Claim C8: date coercion is total and never propagates a failure —
null/absent input or input trimming to the empty string yields null, a
parse failure yields null, and a successful parse yields exactly the
date-only `YYYY-MM-DD` rendering. -/
theorem c8_date_never_raises (x : Cell) :
    ((isna x = true ∨ stripChars (astype_str x).data = []) →
      parse_date x = Cell.pynone) ∧
    (dateGuess (astype_str x) = none → parse_date x = Cell.pynone) ∧
    (∀ o, dateGuess (astype_str x) = some o → isna x = false →
      parse_date x = Cell.str o ∧ isoShape o.data = true) ∧
    (parse_date x = Cell.pynone ∨
      ∃ o, parse_date x = Cell.str o ∧ isoShape o.data = true) := by
  have hshape : ∀ o, dateGuess (astype_str x) = some o → isoShape o.data = true := by
    intro o ho
    rcases dateGuess_some_shape ho with ⟨y, m, d, hok, hoe⟩
    rw [hoe]
    exact isoShape_mkIso hok
  by_cases h1 : isna x = true ∨ stripChars (astype_str x).data = []
  · have hpd : parse_date x = Cell.pynone := by
      unfold parse_date
      rw [if_pos h1]
    refine ⟨fun _ => hpd, fun _ => hpd, ?_, Or.inl hpd⟩
    intro o ho hna
    exfalso
    rcases h1 with h1 | h1
    · rw [h1] at hna
      cases hna
    · rw [dateGuess_of_strip_nil h1] at ho
      cases ho
  · rcases hdg : dateGuess (astype_str x) with _ | o
    · have hpd : parse_date x = Cell.pynone := by
        unfold parse_date
        rw [if_neg h1, hdg]
      refine ⟨fun hc => absurd hc h1, fun _ => hpd, ?_, Or.inl hpd⟩
      intro o ho _
      exact Option.noConfusion ho
    · have hpd : parse_date x = Cell.str o := by
        unfold parse_date
        rw [if_neg h1, hdg]
      refine ⟨fun hc => absurd hc h1, ?_, ?_, Or.inr ⟨o, hpd, hshape o hdg⟩⟩
      · intro hc
        exact Option.noConfusion hc
      · intro o2 ho2 _
        injection ho2 with ho2
        rw [← ho2]
        exact ⟨hpd, hshape o hdg⟩

/-- Witness for C8: the null case and a successful day-first parse. -/
theorem c8_date_never_raises_witness :
    parse_date Cell.nan = Cell.pynone ∧
    parse_date (Cell.str "15.05.2023") = Cell.str "2023-05-15" :=
  ⟨(c8_date_never_raises Cell.nan).1 (Or.inl (by decide)),
    ((c8_date_never_raises (Cell.str "15.05.2023")).2.2.1 "2023-05-15"
      (by decide) (by decide)).1⟩

/-! ### The no-double-whitespace invariant of `collapseChars` -/

/-- No two consecutive whitespace characters occur in the list. -/
def noDouble : List Char → Bool
  | [] => true
  | [_] => true
  | c :: d :: rest => !(isSpace c && isSpace d) && noDouble (d :: rest)

theorem collapseFuel_eq_nil_iff :
    ∀ (f : Nat) (l : List Char), l.length ≤ f → (collapseFuel f l = [] ↔ l = []) := by
  intro f
  induction f with
  | zero =>
    intro l hl
    have hnil : l = [] := by
      cases l with
      | nil => rfl
      | cons c cs => simp at hl
    subst hnil
    simp [collapseFuel]
  | succ f ih =>
    intro l hl
    rcases l with _ | ⟨c, _ | ⟨d, rest⟩⟩
    · simp [collapseFuel]
    · simp [collapseFuel]
    · simp only [collapseFuel]
      by_cases hws : (isSpace c && isSpace d) = true
      · rw [if_pos hws]
        have h2 : (' ' :: rest).length ≤ f := by simp at hl ⊢; omega
        rw [ih _ h2]
        simp
      · rw [if_neg hws]
        simp

theorem collapseFuel_head :
    ∀ (f : Nat) (c : Char) (rest : List Char), (c :: rest).length ≤ f →
      ∃ e r2, collapseFuel f (c :: rest) = e :: r2 ∧ isSpace e = isSpace c := by
  intro f
  induction f with
  | zero => intro c rest hl; simp at hl
  | succ f ih =>
    intro c rest hl
    rcases rest with _ | ⟨d, rest⟩
    · exact ⟨c, [], rfl, rfl⟩
    · simp only [collapseFuel]
      by_cases hws : (isSpace c && isSpace d) = true
      · rw [if_pos hws]
        have h2 : (' ' :: rest).length ≤ f := by simp at hl ⊢; omega
        rcases ih ' ' rest h2 with ⟨e, r2, he, hsp⟩
        simp only [Bool.and_eq_true] at hws
        exact ⟨e, r2, he, hsp.trans (by rw [hws.1]; decide)⟩
      · rw [if_neg hws]
        exact ⟨c, _, rfl, rfl⟩

theorem collapseFuel_noDouble :
    ∀ (f : Nat) (l : List Char), l.length ≤ f →
      noDouble (collapseFuel f l) = true := by
  intro f
  induction f with
  | zero =>
    intro l hl
    have hnil : l = [] := by
      cases l with
      | nil => rfl
      | cons c cs => simp at hl
    subst hnil
    rfl
  | succ f ih =>
    intro l hl
    rcases l with _ | ⟨c, _ | ⟨d, rest⟩⟩
    · rfl
    · rfl
    · simp only [collapseFuel]
      by_cases hws : (isSpace c && isSpace d) = true
      · rw [if_pos hws]
        exact ih _ (by simp at hl ⊢; omega)
      · rw [if_neg hws]
        have hws2 : (isSpace c && isSpace d) = false := by simpa using hws
        have h2 : (d :: rest).length ≤ f := by simp at hl ⊢; omega
        have hX := ih (d :: rest) h2
        rcases collapseFuel_head f d rest h2 with ⟨e, r2, he, hsp⟩
        rw [he] at hX ⊢
        simp only [noDouble, Bool.and_eq_true]
        constructor
        · rw [hsp, hws2]
          rfl
        · exact hX

theorem collapseFuel_of_noDouble :
    ∀ (f : Nat) (l : List Char), l.length ≤ f → noDouble l = true →
      collapseFuel f l = l := by
  intro f
  induction f with
  | zero => intro l _ _; rfl
  | succ f ih =>
    intro l hl hnd
    rcases l with _ | ⟨c, _ | ⟨d, rest⟩⟩
    · rfl
    · rfl
    · simp only [noDouble, Bool.and_eq_true] at hnd
      have hws : (isSpace c && isSpace d) = false := by
        have h1 := hnd.1
        rw [Bool.not_eq_true'] at h1
        exact h1
      simp only [collapseFuel]
      rw [if_neg (by simp [hws])]
      have h2 : (d :: rest).length ≤ f := by simp at hl ⊢; omega
      rw [ih _ h2 hnd.2]

theorem collapseFuel_last :
    ∀ (f : Nat) (l : List Char), l.length ≤ f →
      (∀ c, l.getLast? = some c → isSpace c = false) →
      ∀ c, (collapseFuel f l).getLast? = some c → isSpace c = false := by
  intro f
  induction f with
  | zero => intro l _ h c hc; exact h c hc
  | succ f ih =>
    intro l hl h c hc
    rcases l with _ | ⟨c0, _ | ⟨d, rest⟩⟩
    · exact Option.noConfusion hc
    · have he : c0 = c := by simpa [collapseFuel] using hc
      subst he
      exact h _ (by simp)
    · simp only [collapseFuel] at hc
      by_cases hws : (isSpace c0 && isSpace d) = true
      · rw [if_pos hws] at hc
        rcases rest with _ | ⟨r, rs⟩
        · exfalso
          simp only [Bool.and_eq_true] at hws
          have hd := h d (by simp)
          rw [hws.2] at hd
          cases hd
        · refine ih (' ' :: r :: rs) (by simp at hl ⊢; omega) ?_ c hc
          intro e he
          apply h e
          rw [List.getLast?_cons_cons, List.getLast?_cons_cons]
          rw [List.getLast?_cons_cons] at he
          exact he
      · rw [if_neg hws] at hc
        have h2 : (d :: rest).length ≤ f := by simp at hl ⊢; omega
        have hprev : ∀ e, (d :: rest).getLast? = some e → isSpace e = false := by
          intro e he
          apply h e
          rw [List.getLast?_cons_cons]
          exact he
        have hX := ih (d :: rest) h2 hprev
        rcases collapseFuel_head f d rest h2 with ⟨e0, r2, he0, _⟩
        rw [he0] at hc hX
        rw [List.getLast?_cons_cons] at hc
        exact hX c hc

theorem collapseChars_eq_nil_iff (l : List Char) :
    collapseChars l = [] ↔ l = [] :=
  collapseFuel_eq_nil_iff l.length l (Nat.le_refl _)

theorem collapseChars_noDouble (l : List Char) :
    noDouble (collapseChars l) = true :=
  collapseFuel_noDouble l.length l (Nat.le_refl _)

theorem collapseChars_of_noDouble {l : List Char} (h : noDouble l = true) :
    collapseChars l = l :=
  collapseFuel_of_noDouble l.length l (Nat.le_refl _) h

theorem collapseChars_idem (l : List Char) :
    collapseChars (collapseChars l) = collapseChars l :=
  collapseChars_of_noDouble (collapseChars_noDouble l)

theorem collapseChars_head (c : Char) (rest : List Char) :
    ∃ e r2, collapseChars (c :: rest) = e :: r2 ∧ isSpace e = isSpace c :=
  collapseFuel_head _ c rest (Nat.le_refl _)

theorem collapseChars_last (l : List Char)
    (h : ∀ c, l.getLast? = some c → isSpace c = false) :
    ∀ c, (collapseChars l).getLast? = some c → isSpace c = false :=
  collapseFuel_last l.length l (Nat.le_refl _) h

/-! ### `stripChars` produces and preserves trimmed lists -/

theorem head_dropWhile_nonspace (l : List Char) :
    ∀ c, (l.dropWhile isSpace).head? = some c → isSpace c = false := by
  intro c hc
  have h := List.head?_dropWhile_not isSpace l
  rw [hc] at h
  exact h

theorem getLast?_dropWhile_or (p : Char → Bool) :
    ∀ l : List Char, l.dropWhile p = [] ∨ (l.dropWhile p).getLast? = l.getLast? := by
  intro l
  induction l with
  | nil => left; rfl
  | cons a l ih =>
    by_cases hp : p a = true
    · rw [List.dropWhile_cons_of_pos hp]
      rcases l with _ | ⟨b, t⟩
      · left; rfl
      · rcases ih with h | h
        · left; exact h
        · right
          rw [List.getLast?_cons_cons]
          exact h
    · rw [List.dropWhile_cons_of_neg hp]
      right; rfl

theorem stripChars_noLead (l : List Char) :
    ∀ c, (stripChars l).head? = some c → isSpace c = false := by
  intro c hc
  unfold stripChars at hc
  rw [List.head?_reverse] at hc
  rcases getLast?_dropWhile_or isSpace (l.dropWhile isSpace).reverse with h | h
  · rw [h] at hc
    exact Option.noConfusion hc
  · rw [h, List.getLast?_reverse] at hc
    exact head_dropWhile_nonspace l c hc

theorem stripChars_noTrail (l : List Char) :
    ∀ c, (stripChars l).getLast? = some c → isSpace c = false := by
  intro c hc
  unfold stripChars at hc
  rw [List.getLast?_reverse] at hc
  exact head_dropWhile_nonspace (l.dropWhile isSpace).reverse c hc

theorem stripChars_eq_self {l : List Char}
    (h1 : ∀ c, l.head? = some c → isSpace c = false)
    (h2 : ∀ c, l.getLast? = some c → isSpace c = false) :
    stripChars l = l := by
  unfold stripChars
  have e1 : l.dropWhile isSpace = l := by
    cases l with
    | nil => rfl
    | cons a t => exact List.dropWhile_cons_of_neg (by simp [h1 a rfl])
  rw [e1]
  have e2 : l.reverse.dropWhile isSpace = l.reverse := by
    rcases hr : l.reverse with _ | ⟨a, t⟩
    · rfl
    · have ha : l.getLast? = some a := by
        rw [← List.head?_reverse, hr]
        rfl
      exact List.dropWhile_cons_of_neg (by simp [h2 a ha])
  rw [e2, List.reverse_reverse]

theorem stripChars_idem (l : List Char) :
    stripChars (stripChars l) = stripChars l :=
  stripChars_eq_self (stripChars_noLead l) (stripChars_noTrail l)

theorem stripChars_collapseChars_strip (t : List Char) :
    stripChars (collapseChars (stripChars t)) = collapseChars (stripChars t) := by
  apply stripChars_eq_self
  · intro c hc
    rcases hs : stripChars t with _ | ⟨a, rest⟩
    · rw [hs] at hc
      exact Option.noConfusion hc
    · rw [hs] at hc
      rcases collapseChars_head a rest with ⟨e, r2, he, hsp⟩
      rw [he] at hc
      injection hc with hc
      subst hc
      rw [hsp]
      exact stripChars_noLead t a (by rw [hs]; rfl)
  · exact collapseChars_last _ (stripChars_noTrail t)

/-! ### Case analyses of the normalization primitives -/

theorem norm_field_cases (c : Cell) :
    norm_field c = Cell.pynone ∨
      (stripChars (astype_str c).data ≠ [] ∧
        norm_field c = Cell.str ⟨stripChars (astype_str c).data⟩) := by
  unfold norm_field
  by_cases h : stripChars (astype_str c).data = []
  · left
    rw [if_pos h]
  · right
    exact ⟨h, by rw [if_neg h]⟩

theorem norm_field_str_stripped {u : List Char} (hu : u ≠ [])
    (hself : stripChars u = u) :
    norm_field (Cell.str ⟨u⟩) = Cell.str ⟨u⟩ := by
  show (if stripChars u = [] then Cell.pynone else Cell.str ⟨stripChars u⟩) =
    Cell.str ⟨u⟩
  rw [hself, if_neg hu]

theorem parse_bool_cases (v : Cell) :
    parse_bool v = Cell.pynone ∨ parse_bool v = Cell.pybool true ∨
      parse_bool v = Cell.pybool false := by
  unfold parse_bool
  by_cases h1 : isna v = true
  · rw [if_pos h1]
    left
    rfl
  · rw [if_neg h1]
    unfold parse_bool_token
    split_ifs
    · right
      left
      rfl
    · right
      right
      rfl
    · left
      rfl

theorem parse_bool_pybool (b : Bool) :
    parse_bool (Cell.pybool b) = Cell.pybool b := by
  cases b <;> decide

theorem parse_bool_pynone : parse_bool Cell.pynone = Cell.pynone := by decide

theorem parse_date_pynone : parse_date Cell.pynone = Cell.pynone := by decide

theorem mkIso_ne_nil (y m d : List Char) : mkIso y m d ≠ [] := by
  unfold mkIso
  intro h
  rcases List.append_eq_nil.mp h with ⟨_, h2⟩
  cases h2

theorem parse_date_cases (x : Cell) :
    parse_date x = Cell.pynone ∨
      ∃ o, parse_date x = Cell.str o ∧ dateGuess (astype_str x) = some o := by
  unfold parse_date
  by_cases h1 : isna x = true ∨ stripChars (astype_str x).data = []
  · rw [if_pos h1]
    left
    rfl
  · rw [if_neg h1]
    rcases hdg : dateGuess (astype_str x) with _ | o
    · left
      rfl
    · right
      exact ⟨o, rfl, rfl⟩

theorem parse_date_roundtrip {s o : String} (h : dateGuess s = some o) :
    parse_date (Cell.str o) = Cell.str o := by
  rcases dateGuess_some_shape h with ⟨y, m, d, hok, hoe⟩
  subst hoe
  have hOk := hok
  simp only [dmyOk, Bool.and_eq_true] at hok
  obtain ⟨⟨⟨⟨⟨⟨⟨⟨⟨hy, _⟩, hm⟩, _⟩, hd⟩, _⟩, _⟩, _⟩, _⟩, _⟩ := hok
  have hstrip : stripChars (String.mk (mkIso y m d)).data = mkIso y m d :=
    stripChars_of_all_nonspace _ (mkIso_all_nonspace hy hm hd)
  have hcond : ¬(isna (Cell.str (String.mk (mkIso y m d))) = true ∨
      stripChars (astype_str (Cell.str (String.mk (mkIso y m d)))).data = []) := by
    rintro (hna | hnil)
    · simp [isna] at hna
    · simp only [astype_str] at hnil
      rw [hstrip] at hnil
      exact mkIso_ne_nil y m d hnil
  unfold parse_date
  rw [if_neg hcond]
  simp only [astype_str]
  rw [dateGuess_mkIso hOk]

/-! ### C6 -/

/-- A raw input row whose `email` trims to the empty string, so its
normalized `email` is null. -/
def rowC6Raw : Row :=
  { id := Cell.str "1", name := Cell.str "Ann", email := Cell.str "  ",
    role := Cell.str "eng", start_date := Cell.str "2023-05-15",
    active := Cell.str "yes" }

/-- Claim C6 counterexample: normalization is not idempotent on every
already-normalized record — re-normalizing the normalized form of
`rowC6Raw` turns its null `email` into the string `"None"` (via
`str(None)`), so applying both stages again changes the record. -/
theorem c6_counterexample :
    normalize (normalize rowC6Raw) ≠ normalize rowC6Raw := by decide

/-- Claim C6 (amended): normalization is idempotent on every normalized
record whose `name`, `email` and `role` are non-null; only records with a
null string field are changed by a second pass (null becomes the string
`"None"` or `"nan"`). -/
theorem normalize_fields (x : Row) :
    normalize x =
      { id := Cell.str (pystrip (astype_str x.id)),
        name := collapse_ws (norm_field x.name),
        email := norm_field x.email,
        role := norm_field x.role,
        start_date := parse_date x.start_date,
        active := parse_bool x.active } := rfl

theorem c6_amended_idempotent (r : Row)
    (hn : isna (normalize r).name = false)
    (he : isna (normalize r).email = false)
    (hr : isna (normalize r).role = false) :
    normalize (normalize r) = normalize r := by
  rw [normalize_fields r] at hn he hr
  dsimp only at hn he hr
  have e_id : Cell.str (pystrip (astype_str
      (Cell.str (pystrip (astype_str r.id))))) =
      Cell.str (pystrip (astype_str r.id)) := by
    show Cell.str ⟨stripChars (stripChars (astype_str r.id).data)⟩ = _
    rw [stripChars_idem]
    rfl
  have e_name : collapse_ws (norm_field (collapse_ws (norm_field r.name))) =
      collapse_ws (norm_field r.name) := by
    rcases norm_field_cases r.name with h | ⟨hne, h⟩
    · exfalso
      rw [h] at hn
      exact absurd hn (by decide)
    · rw [h]
      show collapse_ws (norm_field (Cell.str
        ⟨collapseChars (stripChars (astype_str r.name).data)⟩)) = _
      have hvne : collapseChars (stripChars (astype_str r.name).data) ≠ [] := by
        rw [Ne, collapseChars_eq_nil_iff]
        exact hne
      rw [norm_field_str_stripped hvne (stripChars_collapseChars_strip _)]
      show Cell.str ⟨collapseChars (collapseChars
        (stripChars (astype_str r.name).data))⟩ = _
      rw [collapseChars_idem]
      rfl
  have e_email : norm_field (norm_field r.email) = norm_field r.email := by
    rcases norm_field_cases r.email with h | ⟨hne, h⟩
    · exfalso
      rw [h] at he
      exact absurd he (by decide)
    · rw [h]
      exact norm_field_str_stripped hne (stripChars_idem _)
  have e_role : norm_field (norm_field r.role) = norm_field r.role := by
    rcases norm_field_cases r.role with h | ⟨hne, h⟩
    · exfalso
      rw [h] at hr
      exact absurd hr (by decide)
    · rw [h]
      exact norm_field_str_stripped hne (stripChars_idem _)
  have e_date : parse_date (parse_date r.start_date) = parse_date r.start_date := by
    rcases parse_date_cases r.start_date with h | ⟨o, h, hdg⟩
    · rw [h]
      exact parse_date_pynone
    · rw [h]
      exact parse_date_roundtrip hdg
  have e_act : parse_bool (parse_bool r.active) = parse_bool r.active := by
    rcases parse_bool_cases r.active with h | h | h <;> rw [h]
    · exact parse_bool_pynone
    · exact parse_bool_pybool true
    · exact parse_bool_pybool false
  calc normalize (normalize r)
      = { id := Cell.str (pystrip (astype_str (normalize r).id)),
          name := collapse_ws (norm_field (normalize r).name),
          email := norm_field (normalize r).email,
          role := norm_field (normalize r).role,
          start_date := parse_date (normalize r).start_date,
          active := parse_bool (normalize r).active } := normalize_fields _
    _ = normalize r := by
        rw [normalize_fields r]
        dsimp only
        rw [e_id, e_name, e_email, e_role, e_date, e_act]

/-- Witness for the amended C6 at a concrete fully populated row. -/
theorem c6_amended_idempotent_witness :
    normalize (normalize rowOkRaw) = normalize rowOkRaw :=
  c6_amended_idempotent rowOkRaw (by decide) (by decide) (by decide)

/-! ### C9: the email pattern -/

/-- The anchored pattern of `EMAIL_RE` on a character list: the list
decomposes as `a ++ '@' :: (b ++ '.' :: c)` with `a`, `b`, `c` nonempty
and free of `@` and whitespace. -/
def anchoredEmailL (l : List Char) : Prop :=
  ∃ a b c : List Char,
    l = a ++ '@' :: (b ++ '.' :: c) ∧ a ≠ [] ∧ b ≠ [] ∧ c ≠ [] ∧
    (∀ ch ∈ a, okChar ch = true) ∧ (∀ ch ∈ b, okChar ch = true) ∧
    (∀ ch ∈ c, okChar ch = true)

/-- The anchored pattern of `EMAIL_RE` on a string. -/
def anchoredEmail (s : String) : Prop :=
  anchoredEmailL s.data

/-- Both edges of the list are free of whitespace. -/
def noWsEdge (l : List Char) : Bool :=
  (match l.head? with
    | some c => !isSpace c
    | none => true) &&
  (match l.getLast? with
    | some c => !isSpace c
    | none => true)

/-- A cell in the form the normalization stage produces for `email`:
null, or a string trimmed at both ends. -/
def normalizedEmailB : Cell → Bool
  | Cell.pynone => true
  | Cell.str s => noWsEdge s.data
  | _ => false

theorem noWsEdge_getLast {l : List Char} (h : noWsEdge l = true) :
    ∀ c, l.getLast? = some c → isSpace c = false := by
  intro c hc
  simp only [noWsEdge, Bool.and_eq_true] at h
  have h2 := h.2
  rw [hc] at h2
  rw [Bool.not_eq_true'] at h2
  exact h2

theorem noWsEdge_of {l : List Char}
    (h1 : ∀ c, l.head? = some c → isSpace c = false)
    (h2 : ∀ c, l.getLast? = some c → isSpace c = false) :
    noWsEdge l = true := by
  simp only [noWsEdge, Bool.and_eq_true]
  constructor
  · rcases hh : l.head? with _ | c
    · rfl
    · show (!isSpace c) = true
      rw [h1 c hh]
      rfl
  · rcases hg : l.getLast? with _ | c
    · rfl
    · show (!isSpace c) = true
      rw [h2 c hg]
      rfl

theorem emailMatch_of_noTrail {s : String}
    (h : ∀ c, s.data.getLast? = some c → isSpace c = false) :
    emailMatch s = emailCore s.data := by
  unfold emailMatch
  have h2 : (s.data.getLast? == some '\n') = false := by
    rcases hg : s.data.getLast? with _ | c
    · rfl
    · apply beq_eq_false_iff_ne.mpr
      intro hne
      injection hne with hne
      have hns := h c hg
      rw [hne] at hns
      exact absurd hns (by decide)
  rw [h2]
  simp

theorem interior_dot_iff (m : List Char) :
    '.' ∈ (m.drop 1).dropLast ↔ ∃ b c, m = b ++ '.' :: c ∧ b ≠ [] ∧ c ≠ [] := by
  constructor
  · intro hmem
    rcases m with _ | ⟨x, m'⟩
    · simp at hmem
    · simp only [List.drop_succ_cons, List.drop_zero] at hmem
      have hm' : m' ≠ [] := by
        intro h
        rw [h] at hmem
        simp at hmem
      rcases List.append_of_mem hmem with ⟨u, v, huv⟩
      have hlast := List.dropLast_concat_getLast hm'
      refine ⟨x :: u, v ++ [m'.getLast hm'], ?_, by simp, by simp⟩
      conv_lhs => rw [← hlast]
      rw [huv]
      simp
  · rintro ⟨b, c, hm, hb, hc⟩
    subst hm
    rcases b with _ | ⟨x, b'⟩
    · exact absurd rfl hb
    · rcases c with _ | ⟨y, c'⟩
      · exact absurd rfl hc
      · simp only [List.cons_append, List.drop_succ_cons, List.drop_zero]
        rw [List.dropLast_append_cons, List.dropLast_cons₂]
        simp

theorem emailCore_iff (l : List Char) : emailCore l = true ↔ anchoredEmailL l := by
  constructor
  · intro h
    unfold emailCore at h
    rcases hs : splitOnChar '@' l with _ | ⟨a, _ | ⟨m, _ | ⟨p, t⟩⟩⟩ <;> rw [hs] at h
    · simp at h
    · simp at h
    · simp only [Bool.and_eq_true] at h
      obtain ⟨⟨⟨ha1, ha2⟩, hm2⟩, hdot⟩ := h
      have hmem : '.' ∈ (m.drop 1).dropLast := of_decide_eq_true hdot
      rcases (interior_dot_iff m).mp hmem with ⟨b, c, hbc, hb, hc⟩
      have hjoin := joinSep_splitOnChar '@' l
      rw [hs] at hjoin
      simp only [joinSep] at hjoin
      refine ⟨a, b, c, ?_, ?_, hb, hc, ?_, ?_, ?_⟩
      · rw [← hjoin, hbc]
      · intro hnil
        rw [hnil] at ha1
        simp at ha1
      · exact fun ch hch => List.all_eq_true.mp ha2 ch hch
      · intro ch hch
        apply List.all_eq_true.mp hm2
        rw [hbc]
        exact List.mem_append.mpr (Or.inl hch)
      · intro ch hch
        apply List.all_eq_true.mp hm2
        rw [hbc]
        exact List.mem_append.mpr (Or.inr (List.mem_cons_of_mem _ hch))
    · simp at h
  · rintro ⟨a, b, c, hl, ha, hb, hc, hca, hcb, hcc⟩
    have hAa : '@' ∉ a := by
      intro hm
      have h2 := hca '@' hm
      simp [okChar] at h2
    have hAm : '@' ∉ b ++ '.' :: c := by
      intro hm
      rcases List.mem_append.mp hm with hm | hm
      · have h2 := hcb '@' hm
        simp [okChar] at h2
      · rcases List.mem_cons.mp hm with hm | hm
        · exact absurd hm (by decide)
        · have h2 := hcc '@' hm
          simp [okChar] at h2
    have hsplit : splitOnChar '@' l = [a, b ++ '.' :: c] := by
      rw [hl, splitOnChar_append_sep '@' a _ hAa, splitOnChar_of_not_mem '@' _ hAm]
    unfold emailCore
    rw [hsplit]
    simp only [Bool.and_eq_true]
    refine ⟨⟨⟨?_, ?_⟩, ?_⟩, ?_⟩
    · rw [Bool.not_eq_true']
      rw [← Bool.not_eq_true]
      simp [List.isEmpty_iff, ha]
    · exact List.all_eq_true.mpr hca
    · apply List.all_eq_true.mpr
      intro ch hch
      rcases List.mem_append.mp hch with hm | hm
      · exact hcb ch hm
      · rcases List.mem_cons.mp hm with hm | hm
        · subst hm
          decide
        · exact hcc ch hm
    · apply decide_eq_true
      exact (interior_dot_iff _).mpr ⟨b, c, rfl, hb, hc⟩

theorem mem_errlist_email_key : ∀ b1 b2 b3 b4 b5 b6 : Bool,
    ("invalid_email" ∈
      (if b1 then ["missing_id"] else []) ++
        (if b2 then ["missing_name"] else []) ++
        (if b3 then ["invalid_email"] else []) ++
        (if b4 then ["missing_role"] else []) ++
        (if b5 then ["invalid_start_date"] else []) ++
        (if b6 then ["invalid_active"] else []) ↔ b3 = true) := by decide

theorem mem_errlist_email (r : Row) :
    "invalid_email" ∈ row_errlist r ↔ chkEmail r = true :=
  mem_errlist_email_key (chkId r) (chkName r) (chkEmail r) (chkRole r)
    (chkDate r) (chkActive r)

/-- Claim C9: the pipeline only ever hands the validator a null or trimmed
email; for every such record the `invalid_email` rule fires iff the email
is null or fails the anchored pattern of `EMAIL_RE`; and the scenario row
with `email="not-an-email"` is invalid with descriptor exactly
`"invalid_email"`. -/
theorem c9_invalid_email_iff :
    (∀ raw : Row, normalizedEmailB (normalize raw).email = true) ∧
    (∀ r : Row, normalizedEmailB r.email = true →
      ("invalid_email" ∈ row_errlist r ↔
        (r.email = Cell.pynone ∨ ¬ anchoredEmail (astype_str r.email)))) ∧
    row_errors (normalize rowBadRaw) = "invalid_email" := by
  refine ⟨?_, ?_, by decide⟩
  · intro raw
    have hfld : (normalize raw).email = norm_field raw.email := rfl
    rw [hfld]
    rcases norm_field_cases raw.email with h | ⟨hne, h⟩
    · rw [h]
      rfl
    · rw [h]
      show noWsEdge (stripChars (astype_str raw.email).data) = true
      exact noWsEdge_of (stripChars_noLead _) (stripChars_noTrail _)
  · intro r hne
    rw [mem_errlist_email r]
    rcases hE : r.email with s | _ | _ | b
    · rw [hE] at hne
      have hnT : ∀ c, s.data.getLast? = some c → isSpace c = false :=
        noWsEdge_getLast hne
      have hM : emailMatch s = emailCore s.data := emailMatch_of_noTrail hnT
      simp only [chkEmail]
      rw [hE]
      simp only [truthy, astype_str, anchoredEmail]
      have hsne : ¬ (Cell.str s = Cell.pynone) := by simp
      by_cases hnil : s.data = []
      · constructor
        · intro _
          right
          rintro ⟨a, b2, c, hl, _⟩
          rw [hnil] at hl
          rcases a with _ | ⟨x, a'⟩ <;> simp at hl
        · intro _
          rw [hnil]
          rfl
      · have hT : (!s.data.isEmpty) = true := by
          rw [Bool.not_eq_true']
          rw [← Bool.not_eq_true]
          simp [List.isEmpty_iff, hnil]
        rw [hT]
        simp only [Bool.not_true, Bool.false_or]
        rw [hM, Bool.not_eq_true']
        constructor
        · intro hF
          right
          intro hA
          rw [(emailCore_iff s.data).mpr hA] at hF
          cases hF
        · rintro (hc | hc)
          · exact absurd hc hsne
          · cases hcore : emailCore s.data
            · rfl
            · exact absurd ((emailCore_iff s.data).mp hcore) hc
    · rw [hE] at hne
      exact absurd hne (by decide)
    · simp only [chkEmail]
      rw [hE]
      constructor
      · intro _
        simp
      · intro _
        rfl
    · rw [hE] at hne
      simp [normalizedEmailB] at hne

/-- Witness for C9 at the normalized form of the malformed-email row. -/
theorem c9_invalid_email_iff_witness :
    "invalid_email" ∈ row_errlist rowBad ↔
      (rowBad.email = Cell.pynone ∨ ¬ anchoredEmail (astype_str rowBad.email)) :=
  c9_invalid_email_iff.2.1 rowBad (by decide)

end Stammdaten
